import Mathlib

set_option maxRecDepth 4000

/-!
Verification of the jetch drawing app's core logic against its design
document. The file shallowly embeds, from `src/App.tsx` and `src/utils.ts`:
the undo/redo history state machine, the history-compaction (flatten)
effect, the static-layer incremental repaint decision, the zoom clamping of
wheel and pinch view updates, and the `processHistory` / `exportAsPng`
grouping, bounds and crop pipeline. Browser rasterization is abstracted as
alpha/color oracles where pixels are involved.
-/

namespace Jetch

/-- Undo/redo state: the committed `history` list plus the `redo` stack
(`App.tsx`: `history` state and the `redo` ref). -/
structure UndoState (α : Type) where
  history : List α
  redo : List α
deriving DecidableEq

/-- Committing a stroke clears the redo stack and appends the new action
(`App.tsx`, `commitStroke`: `redo.current = []` then `draft.push(...)`). -/
def commit {α : Type} (s : UndoState α) (a : α) : UndoState α :=
  { history := s.history ++ [a], redo := [] }

/-- The undo shortcut (`App.tsx`, `onKeyDown`): no-op when the history is
empty, otherwise the last action moves to the front of the redo stack and is
removed from the history. -/
def undo {α : Type} (s : UndoState α) : UndoState α :=
  match s.history.getLast? with
  | none => s
  | some a => { history := s.history.dropLast, redo := a :: s.redo }

/-- The redo shortcut (`App.tsx`, `onKeyDown`): no-op when the redo stack is
empty, otherwise its front action is appended to the history. -/
def redoStep {α : Type} (s : UndoState α) : UndoState α :=
  match s.redo with
  | [] => s
  | a :: rest => { history := s.history ++ [a], redo := rest }

/-- Committing a list of actions in order. -/
def commitAll {α : Type} (s : UndoState α) (as : List α) : UndoState α :=
  as.foldl commit s

/-- Applying `k` undo operations. -/
def undoN {α : Type} : ℕ → UndoState α → UndoState α
  | 0, s => s
  | k + 1, s => undo (undoN k s)

/-- Tail length kept live by compaction (`App.tsx`, `TARGET_LENGTH`). -/
def TARGET_LENGTH : ℕ := 100

/-- Hysteresis buffer added to the target before compaction triggers
(`App.tsx`, flatten effect guard comment: "buffer of 20 items"). -/
def FLATTEN_BUFFER : ℕ := 20

/-- The flatten effect's trigger guard (`App.tsx`: the effect returns early
when `history.length <= TARGET_LENGTH + 20`). -/
def shouldFlatten {α : Type} (history : List α) : Bool :=
  decide (TARGET_LENGTH + FLATTEN_BUFFER < history.length)

/-- The split point captured by a compaction run (`App.tsx`:
`splitIndex = history.length - TARGET_LENGTH`). -/
def splitIndex {α : Type} (history : List α) : ℕ :=
  history.length - TARGET_LENGTH

/-- The actions a compaction run rasterizes (`App.tsx`:
`history.slice(0, splitIndex)`). -/
def toFlatten {α : Type} (history : List α) : List α :=
  history.take (splitIndex history)

/-- The updater a finished compaction passes to `setHistory` (`App.tsx`):
abort when the history has shrunk below the captured split index
(`prev.length < splitIndex`), otherwise atomically replace the first
`splitIdx` actions with the snapshot. -/
def applyFlatten {α : Type} (snap : α) (splitIdx : ℕ) (prev : List α) : List α :=
  if prev.length < splitIdx then prev
  else snap :: prev.drop splitIdx

/-- One synchronous run of the flatten effect on history `h`: the trigger
guard, the captured split index, and the completion updater applied back to
the same history. -/
def flattenOnce {α : Type} (snap : α) (h : List α) : List α :=
  if shouldFlatten h then applyFlatten snap (splitIndex h) h else h

theorem commitAll_empty_redo {α : Type} (as : List α) (h : List α) :
    commitAll ⟨h, []⟩ as = ⟨h ++ as, []⟩ := by
  induction as generalizing h with
  | nil => simp [commitAll]
  | cons a rest ih =>
    simp only [commitAll, List.foldl_cons] at *
    rw [show commit ⟨h, []⟩ a = ⟨h ++ [a], []⟩ from rfl, ih]
    simp

theorem undo_take_drop {α : Type} (as : List α) (n : ℕ) (hlen : n < as.length) :
    undo ⟨as.take (n + 1), as.drop (n + 1)⟩ = ⟨as.take n, as.drop n⟩ := by
  have h2 := List.take_concat_get as n hlen
  rw [List.concat_eq_append] at h2
  have hdrop : as.drop n = as[n] :: as.drop (n + 1) := List.drop_eq_getElem_cons hlen
  rw [undo, ← h2]
  simp only [List.getLast?_concat, List.dropLast_concat]
  rw [← hdrop]

theorem undoN_take_drop {α : Type} (as : List α) (K : ℕ) (hK : K ≤ as.length) :
    undoN K ⟨as, []⟩ =
      ⟨as.take (as.length - K), as.drop (as.length - K)⟩ := by
  induction K with
  | zero => simp [undoN]
  | succ k ih =>
    have hk : k ≤ as.length := by omega
    rw [undoN, ih hk, show as.length - k = (as.length - (k + 1)) + 1 by omega,
      undo_take_drop as (as.length - (k + 1)) (by omega)]

/-- C1: after committing `N` actions from the empty state and undoing
`K ≤ N` times, the history is the first `N - K` actions and the redo stack
holds the last `K` in order, so concatenating history and redo stack yields
the original sequence; a redo pops the front of the redo stack and appends it
to the history; and undo on an empty history leaves both unchanged. -/
theorem undo_redo_spec {α : Type} (as : List α) (K : ℕ) (hK : K ≤ as.length) :
    (undoN K (commitAll ⟨[], []⟩ as)).history.length = as.length - K ∧
    (undoN K (commitAll ⟨[], []⟩ as)).redo.length = K ∧
    (undoN K (commitAll ⟨[], []⟩ as)).history ++
      (undoN K (commitAll ⟨[], []⟩ as)).redo = as ∧
    (∀ t : UndoState α, t.redo ≠ [] →
      redoStep t = ⟨t.history ++ t.redo.take 1, t.redo.drop 1⟩) ∧
    (∀ r : List α, undo ⟨[], r⟩ = ⟨[], r⟩) := by
  rw [commitAll_empty_redo, List.nil_append, undoN_take_drop as K hK]
  refine ⟨by rw [List.length_take]; omega, by rw [List.length_drop]; omega,
    by rw [List.take_append_drop], ?_, by intro r; rfl⟩
  intro t ht
  match h : t.redo with
  | [] => exact absurd h ht
  | a :: rest =>
    simp only [redoStep, h, List.take_cons, List.take_zero, List.drop_succ_cons,
      List.drop_zero]
    rfl

/-- Concrete check of `undo_redo_spec` at three commits and two undos. -/
theorem undo_redo_spec_witness :
    2 ≤ ([10, 20, 30] : List ℕ).length ∧
    ((undoN 2 (commitAll ⟨[], []⟩ ([10, 20, 30] : List ℕ))).history.length =
        ([10, 20, 30] : List ℕ).length - 2 ∧
      (undoN 2 (commitAll ⟨[], []⟩ ([10, 20, 30] : List ℕ))).redo.length = 2 ∧
      (undoN 2 (commitAll ⟨[], []⟩ ([10, 20, 30] : List ℕ))).history ++
        (undoN 2 (commitAll ⟨[], []⟩ ([10, 20, 30] : List ℕ))).redo = [10, 20, 30] ∧
      (∀ t : UndoState ℕ, t.redo ≠ [] →
        redoStep t = ⟨t.history ++ t.redo.take 1, t.redo.drop 1⟩) ∧
      (∀ r : List ℕ, undo ⟨[], r⟩ = ⟨[], r⟩)) :=
  ⟨by decide, undo_redo_spec [10, 20, 30] 2 (by decide)⟩

theorem shouldFlatten_iff {α : Type} (h : List α) :
    shouldFlatten h = true ↔ 120 < h.length := by
  simp [shouldFlatten, TARGET_LENGTH, FLATTEN_BUFFER]

/-- Committing one action and then running the flatten effect to completion
before the next commit (`App.tsx`: the effect fires on every history change,
and under sequential commits each check sees the just-appended history). -/
def commitFlatten {α : Type} (snap : α) (h : List α) (a : α) : List α :=
  flattenOnce snap (h ++ [a])

/-- A sequence of commits, the flatten effect checked after each one. -/
def commitAllFlatten {α : Type} (snap : α) (h : List α) (as : List α) : List α :=
  as.foldl (commitFlatten snap) h

theorem flattenOnce_id {α : Type} (snap : α) (h : List α)
    (hle : h.length ≤ 120) : flattenOnce snap h = h := by
  rw [flattenOnce,
    if_neg (fun hc => absurd ((shouldFlatten_iff h).mp hc) (by omega))]

theorem commitAllFlatten_no_trigger {α : Type} (snap : α) :
    ∀ (as : List α) (h : List α), h.length + as.length ≤ 120 →
      commitAllFlatten snap h as = h ++ as := by
  intro as
  induction as with
  | nil =>
    intro h _
    simp [commitAllFlatten]
  | cons a rest ih =>
    intro h hle
    rw [List.length_cons] at hle
    have hstep : commitFlatten snap h a = h ++ [a] := by
      rw [commitFlatten, flattenOnce_id]
      simp only [List.length_append, List.length_cons, List.length_nil]
      omega
    show commitAllFlatten snap (commitFlatten snap h a) rest = _
    rw [hstep, ih (h ++ [a]) (by simp only [List.length_append,
      List.length_cons, List.length_nil]; omega)]
    simp

theorem commitAllFlatten_130 {α : Type} (snap : α) (as : List α)
    (hlen : as.length = 130) :
    commitAllFlatten snap [] (as.take 120) = as.take 120 ∧
    shouldFlatten (as.take 120) = false ∧
    shouldFlatten (as.take 121) = true ∧
    splitIndex (as.take 121) = 21 ∧
    flattenOnce snap (as.take 121) = snap :: (as.take 121).drop 21 ∧
    commitAllFlatten snap [] as = snap :: as.drop 21 ∧
    (commitAllFlatten snap [] as).length = 110 ∧
    shouldFlatten (commitAllFlatten snap [] as) = false := by
  have h120 : (as.take 120).length = 120 := by
    rw [List.length_take]
    omega
  have h121 : (as.take 121).length = 121 := by
    rw [List.length_take]
    omega
  have c1 : commitAllFlatten snap [] (as.take 120) = as.take 120 := by
    have h := commitAllFlatten_no_trigger snap (as.take 120) [] (by
      simp only [List.length_nil, h120]
      omega)
    simpa using h
  have strig0 : shouldFlatten (as.take 120) = false := by
    rw [shouldFlatten, h120]
    rfl
  have strig1 : shouldFlatten (as.take 121) = true := by
    rw [shouldFlatten, h121]
    rfl
  have ssplit : splitIndex (as.take 121) = 21 := by
    rw [splitIndex, h121]
    rfl
  have f121 : flattenOnce snap (as.take 121) = snap :: (as.take 121).drop 21 := by
    rw [flattenOnce, if_pos strig1, ssplit, applyFlatten,
      if_neg (by rw [h121]; omega)]
  have hidx : (120 : ℕ) < as.length := by omega
  have h2 := List.take_concat_get as 120 hidx
  rw [List.concat_eq_append] at h2
  have p121 : commitAllFlatten snap [] (as.take 121) =
      snap :: (as.take 121).drop 21 := by
    conv_lhs => rw [← h2]
    rw [show commitAllFlatten snap [] (as.take 120 ++ [as[120]]) =
        commitAllFlatten snap (commitAllFlatten snap [] (as.take 120)) [as[120]] from
      List.foldl_append _ _ _ _, c1]
    show commitFlatten snap (as.take 120) as[120] = _
    rw [commitFlatten, h2]
    exact f121
  have hdlen : (as.drop 121).length = 9 := by
    rw [List.length_drop]
    omega
  have plen : (snap :: (as.take 121).drop 21).length = 101 := by
    simp only [List.length_cons, List.length_drop, h121]
  have p130 : commitAllFlatten snap [] as =
      (snap :: (as.take 121).drop 21) ++ as.drop 121 := by
    conv_lhs => rw [show as = as.take 121 ++ as.drop 121 from
      (List.take_append_drop 121 as).symm]
    rw [show commitAllFlatten snap [] (as.take 121 ++ as.drop 121) =
        commitAllFlatten snap (commitAllFlatten snap [] (as.take 121)) (as.drop 121) from
      List.foldl_append _ _ _ _, p121]
    exact commitAllFlatten_no_trigger snap (as.drop 121)
      (snap :: (as.take 121).drop 21) (by omega)
  have hshape : (snap :: (as.take 121).drop 21) ++ as.drop 121 =
      snap :: as.drop 21 := by
    rw [List.cons_append]
    congr 1
    rw [List.drop_take]
    rw [show as.drop 121 = (as.drop 21).drop 100 from by rw [List.drop_drop]]
    exact List.take_append_drop 100 (as.drop 21)
  have flen : (commitAllFlatten snap [] as).length = 110 := by
    rw [p130, hshape]
    simp only [List.length_cons, List.length_drop, hlen]
  have ffin : shouldFlatten (commitAllFlatten snap [] as) = false := by
    rw [shouldFlatten, flen]
    rfl
  exact ⟨c1, strig0, strig1, ssplit, f121, by rw [p130, hshape], flen, ffin⟩

/-- C2 counterexample: for 130 sequential pen commits, with the flatten
effect checked after each commit as in the code, the single compaction fires
at length 121 capturing split index 21 — not 30 — and the final history
length is 110, not the claimed 101. -/
theorem flatten_scenario_counterexample :
    splitIndex ((List.range 130).take 121) = 21 ∧
    ¬ splitIndex ((List.range 130).take 121) = 30 ∧
    (commitAllFlatten 999 [] (List.range 130)).length = 110 ∧
    ¬ (commitAllFlatten 999 [] (List.range 130)).length = 101 := by
  obtain ⟨-, -, -, sp, -, -, e2, -⟩ :=
    commitAllFlatten_130 999 (List.range 130) (by simp)
  exact ⟨sp, by rw [sp]; decide, e2, by rw [e2]; decide⟩

/-- C2 as amended: compaction triggers exactly when the history length
exceeds `TARGET_LENGTH + FLATTEN_BUFFER = 120`, and a triggered run replaces
the `length - 100` oldest actions with one snapshot, keeping the last 100 as
the tail (length 101 at that moment); for 130 sequential pen commits, with
the effect checked after each commit, no compaction occurs through length
120, exactly one compaction occurs once the length exceeds 120 — at length
121, capturing split index 21 and collapsing the first 21 actions into the
snapshot — and the remaining 9 commits leave the snapshot followed by all
actions from index 21 on: final history length 110, with no further
compaction triggering. -/
theorem flatten_policy_sequential {α : Type} (snap : α) (as : List α)
    (hlen : as.length = 130) :
    (∀ h2 : List α, shouldFlatten h2 = true ↔ 120 < h2.length) ∧
    (∀ h2 : List α, 120 < h2.length →
      flattenOnce snap h2 = snap :: h2.drop (h2.length - 100) ∧
      (flattenOnce snap h2).length = 101 ∧
      toFlatten h2 = h2.take (h2.length - 100)) ∧
    commitAllFlatten snap [] (as.take 120) = as.take 120 ∧
    shouldFlatten (as.take 120) = false ∧
    shouldFlatten (as.take 121) = true ∧
    splitIndex (as.take 121) = 21 ∧
    flattenOnce snap (as.take 121) = snap :: (as.take 121).drop 21 ∧
    commitAllFlatten snap [] as = snap :: as.drop 21 ∧
    (commitAllFlatten snap [] as).length = 110 ∧
    shouldFlatten (commitAllFlatten snap [] as) = false := by
  obtain ⟨c1, s0, s1, sp, f1, e1, e2, e3⟩ := commitAllFlatten_130 snap as hlen
  refine ⟨shouldFlatten_iff, ?_, c1, s0, s1, sp, f1, e1, e2, e3⟩
  intro h2 h120
  have htrig : shouldFlatten h2 = true := (shouldFlatten_iff h2).mpr h120
  have hsplit : splitIndex h2 = h2.length - 100 := by
    simp [splitIndex, TARGET_LENGTH]
  have happly : applyFlatten snap (splitIndex h2) h2 =
      snap :: h2.drop (h2.length - 100) := by
    rw [applyFlatten, hsplit, if_neg (by omega)]
  refine ⟨by rw [flattenOnce, htrig, if_pos rfl, happly], ?_, by
    rw [toFlatten, hsplit]⟩
  rw [flattenOnce, htrig, if_pos rfl, happly]
  simp only [List.length_cons, List.length_drop]
  omega

/-- Concrete check of `flatten_policy_sequential` on 130 commits. -/
theorem flatten_policy_sequential_witness :
    (List.range 130).length = 130 ∧
    ((∀ h2 : List ℕ, shouldFlatten h2 = true ↔ 120 < h2.length) ∧
      (∀ h2 : List ℕ, 120 < h2.length →
        flattenOnce 999 h2 = 999 :: h2.drop (h2.length - 100) ∧
        (flattenOnce 999 h2).length = 101 ∧
        toFlatten h2 = h2.take (h2.length - 100)) ∧
      commitAllFlatten 999 [] ((List.range 130).take 120) =
        (List.range 130).take 120 ∧
      shouldFlatten ((List.range 130).take 120) = false ∧
      shouldFlatten ((List.range 130).take 121) = true ∧
      splitIndex ((List.range 130).take 121) = 21 ∧
      flattenOnce 999 ((List.range 130).take 121) =
        999 :: ((List.range 130).take 121).drop 21 ∧
      commitAllFlatten 999 [] (List.range 130) = 999 :: (List.range 130).drop 21 ∧
      (commitAllFlatten 999 [] (List.range 130)).length = 110 ∧
      shouldFlatten (commitAllFlatten 999 [] (List.range 130)) = false) :=
  ⟨by simp, flatten_policy_sequential 999 (List.range 130) (by simp)⟩

/-- C3 counterexample: a compaction run captured split index 21 from a
121-action history; by completion the history has grown to 130 actions, past
the split point, yet the completion updater still applies the snapshot
(replacing the first 21 actions) instead of discarding it and leaving the
history unchanged. -/
theorem flatten_stale_growth_counterexample :
    shouldFlatten (List.range 121) = true ∧
    splitIndex (List.range 121) = 21 ∧
    toFlatten (List.range 121) = (List.range 130).take 21 ∧
    applyFlatten 999 21 (List.range 130) = 999 :: (List.range 130).drop 21 ∧
    applyFlatten 999 21 (List.range 130) ≠ List.range 130 := by
  refine ⟨by decide, by decide, by decide, ?_, ?_⟩
  · rw [applyFlatten, if_neg (by decide)]
  · rw [applyFlatten, if_neg (by decide)]
    decide

/-- C3 as amended: the completion updater discards the compaction exactly when
the history has shrunk below the captured split index; when the history still
has at least `splitIdx` actions — in particular when it has grown past the
split point — the snapshot atomically replaces the first `splitIdx` actions,
whatever they now are, and the tail beyond the split index is preserved. -/
theorem flatten_completion_guard {α : Type} (snap : α) (splitIdx : ℕ)
    (prev : List α) :
    (prev.length < splitIdx → applyFlatten snap splitIdx prev = prev) ∧
    (splitIdx ≤ prev.length →
      applyFlatten snap splitIdx prev = snap :: prev.drop splitIdx ∧
      (applyFlatten snap splitIdx prev).length = prev.length - splitIdx + 1 ∧
      (applyFlatten snap splitIdx prev).drop 1 = prev.drop splitIdx) := by
  constructor
  · intro hlt
    rw [applyFlatten, if_pos hlt]
  · intro hle
    have happly : applyFlatten snap splitIdx prev = snap :: prev.drop splitIdx := by
      rw [applyFlatten, if_neg (by omega)]
    refine ⟨happly, ?_, by rw [happly, List.drop_succ_cons, List.drop_zero]⟩
    rw [happly]
    simp only [List.length_cons, List.length_drop]

/-- Concrete check of `flatten_completion_guard` at split index 2 and a
grown 4-action history. -/
theorem flatten_completion_guard_witness :
    ((2 : ℕ) ≤ ([5, 6, 7, 8] : List ℕ).length →
      applyFlatten 999 2 [5, 6, 7, 8] = 999 :: ([5, 6, 7, 8] : List ℕ).drop 2 ∧
      (applyFlatten 999 2 [5, 6, 7, 8]).length = ([5, 6, 7, 8] : List ℕ).length - 2 + 1 ∧
      (applyFlatten 999 2 [5, 6, 7, 8]).drop 1 = ([5, 6, 7, 8] : List ℕ).drop 2) ∧
    (([5, 6, 7, 8] : List ℕ).length < 2 → applyFlatten 999 2 [5, 6, 7, 8] = [5, 6, 7, 8]) :=
  ⟨(flatten_completion_guard 999 2 [5, 6, 7, 8]).2,
   (flatten_completion_guard 999 2 [5, 6, 7, 8]).1⟩

/-- Lower zoom clamp (`App.tsx`: `Math.max(..., 0.05)`). -/
def minZoom : ℚ := 5 / 100

/-- Upper zoom clamp (`App.tsx`: `Math.min(..., 15)`). -/
def maxZoom : ℚ := 15

/-- `Math.max(Math.min(z, 15), 0.05)` (`App.tsx`, `onWheel` and the pinch
branch of `onPointerMove`). -/
def clampZoom (z : ℚ) : ℚ := max (min z maxZoom) minZoom

/-- New zoom from a ctrl-wheel event (`App.tsx`, `onWheel`:
`zoomChange = 1 - deltaY * 0.01`, then the clamp). -/
def wheelZoom (zoom deltaY : ℚ) : ℚ := clampZoom (zoom * (1 - deltaY * (1 / 100)))

/-- New zoom from a two-pointer pinch (`App.tsx`, `onPointerMove`:
`start.zoom * (dist / start.distance)`, then the clamp), with the distance
ratio taken as one abstract `scale` input. -/
def pinchZoom (startZoom scale : ℚ) : ℚ := clampZoom (startZoom * scale)

/-- C9 counterexample: from the in-range zoom 1, a ctrl-wheel event with
`deltaY = 100` produces exactly the clamp floor 0.05, which is not strictly
greater than 0.05 as the claim requires. -/
theorem zoom_floor_counterexample :
    minZoom < (1 : ℚ) ∧ (1 : ℚ) ≤ maxZoom ∧
    wheelZoom 1 100 = minZoom ∧ ¬ minZoom < wheelZoom 1 100 := by
  have h1 : wheelZoom 1 100 = minZoom := by
    norm_num [wheelZoom, clampZoom, minZoom, maxZoom]
  exact ⟨by norm_num [minZoom], by norm_num [maxZoom], h1,
    by rw [h1]; exact lt_irrefl _⟩

/-- C9 as amended: every wheel ctrl-zoom and every pinch update clamps the
resulting zoom into the closed interval `[0.05, 15]`, for any starting zoom
and any delta or gesture scale. -/
theorem zoom_clamp_range (zoom deltaY startZoom scale : ℚ) :
    minZoom ≤ wheelZoom zoom deltaY ∧ wheelZoom zoom deltaY ≤ maxZoom ∧
    minZoom ≤ pinchZoom startZoom scale ∧ pinchZoom startZoom scale ≤ maxZoom := by
  have hmm : minZoom ≤ maxZoom := by norm_num [minZoom, maxZoom]
  refine ⟨le_max_right _ _, ?_, le_max_right _ _, ?_⟩ <;>
    exact max_le (min_le_right _ _) hmm

/-- Modelled from the spec: `renderActions` and `renderAction` are imported by
`App.tsx` from `utils` but their definitions are not in the sources; per spec
§4.2, `paintActions` is the sequential application of the one-action painter
in list order on the current surface. The painter and the surface stay
abstract. -/
def renderActions {σ α : Type} (paint : σ → α → σ) (surface : σ)
    (actions : List α) : σ :=
  actions.foldl paint surface

/-- The static-layer divergence scan (`App.tsx`, static render effect): walk
the previously rendered history from index 0, stopping at the first index
where the current history ends or differs; return the index reached and
whether the whole previous history matched. -/
def scanMatch {α : Type} [DecidableEq α] : List α → List α → ℕ → ℕ × Bool
  | [], _, i => (i, true)
  | _ :: _, [], i => (i, false)
  | p :: ps, c :: cs, i => if p = c then scanMatch ps cs (i + 1) else (i, false)

/-- The static-layer repaint decision (`App.tsx`, static render effect): when
the view or surface size changed, clear and replay everything; otherwise, if
the previously rendered history is an identical prefix of the new one, paint
only the appended actions on the existing surface without clearing; otherwise
clear and replay everything. -/
def staticRender {σ α : Type} [DecidableEq α] (paint : σ → α → σ) (cleared : σ)
    (viewChanged : Bool) (prev curr : List α) (surface : σ) : σ :=
  if viewChanged then renderActions paint cleared curr
  else
    match scanMatch prev curr 0 with
    | (i, true) => renderActions paint surface (curr.drop i)
    | (_, false) => renderActions paint cleared curr

theorem scanMatch_append {α : Type} [DecidableEq α] (ps cs : List α) (i : ℕ) :
    scanMatch ps (ps ++ cs) i = (i + ps.length, true) := by
  induction ps generalizing i with
  | nil => simp [scanMatch]
  | cons p ps ih =>
    have hstep : scanMatch (p :: ps) ((p :: ps) ++ cs) i =
        scanMatch ps (ps ++ cs) (i + 1) := by
      simp [scanMatch]
    rw [hstep, ih]
    simp only [List.length_cons]
    congr 1
    omega

/-- C4: with the view unchanged, repainting after the history grew from `prev`
to `prev ++ rest` (a strict extension) by painting only the appended actions
onto the surface already holding `prev`'s rendering gives exactly the surface
a full clear-and-replay of the new history would give. -/
theorem incremental_render_eq {σ α : Type} [DecidableEq α]
    (paint : σ → α → σ) (cleared : σ) (prev rest : List α) (hne : rest ≠ []) :
    staticRender paint cleared false prev (prev ++ rest)
        (renderActions paint cleared prev) =
      renderActions paint cleared (prev ++ rest) := by
  have hscan : scanMatch prev (prev ++ rest) 0 = (prev.length, true) := by
    rw [scanMatch_append, Nat.zero_add]
  rw [staticRender, if_neg (by simp), hscan]
  show renderActions paint (renderActions paint cleared prev)
      ((prev ++ rest).drop prev.length) = _
  rw [List.drop_left]
  rw [renderActions, renderActions, renderActions, List.foldl_append]

/-- Concrete check of `incremental_render_eq` on a list-valued surface. -/
theorem incremental_render_eq_witness :
    ([2] : List ℕ) ≠ [] ∧
    staticRender (fun (s : List ℕ) (a : ℕ) => s ++ [a]) [] false [1] ([1] ++ [2])
        (renderActions (fun s a => s ++ [a]) [] [1]) =
      renderActions (fun s a => s ++ [a]) [] ([1] ++ [2]) :=
  ⟨by decide, incremental_render_eq (fun s a => s ++ [a]) [] [1] [2] (by decide)⟩

/-- Brush kinds of a committed action (`utils.ts`, `Action.kind`). -/
inductive Kind where
  | pen
  | eraser
deriving DecidableEq

/-- A committed drawing action (`utils.ts`, `Action`): a unique id, a brush
kind, and the closed outline path, with integer world coordinates. -/
structure Action where
  id : String
  kind : Kind
  path : List (ℤ × ℤ)
deriving DecidableEq

/-- Running bounds during accumulation (`utils.ts`, `getBounds` sentinels):
the `Infinity` start of `minX`/`minY` is `⊤` and the `-Infinity` start of
`maxX`/`maxY` is `⊥`. -/
structure RawBounds where
  minX : WithTop ℤ
  minY : WithTop ℤ
  maxX : WithBot ℤ
  maxY : WithBot ℤ
deriving DecidableEq

/-- The sentinel start value of every bounds accumulation (`utils.ts`). -/
def rawStart : RawBounds := ⟨⊤, ⊤, ⊥, ⊥⟩

/-- Folding one point into running bounds (`utils.ts`, `getBounds` loop
body: `if (x < minX) minX = x` and so on). -/
def boundsPoint (b : RawBounds) (p : ℤ × ℤ) : RawBounds :=
  ⟨if (p.1 : WithTop ℤ) < b.minX then (p.1 : WithTop ℤ) else b.minX,
   if (p.2 : WithTop ℤ) < b.minY then (p.2 : WithTop ℤ) else b.minY,
   if b.maxX < (p.1 : WithBot ℤ) then (p.1 : WithBot ℤ) else b.maxX,
   if b.maxY < (p.2 : WithBot ℤ) then (p.2 : WithBot ℤ) else b.maxY⟩

/-- `getBounds` (`utils.ts`): the bounding box of a path. -/
def getBounds (points : List (ℤ × ℤ)) : RawBounds :=
  points.foldl boundsPoint rawStart

/-- Folding one already-computed box into running bounds (`utils.ts`: the
loop body of `flushGroup` and the aggregate loop of `processHistory`). -/
def boundsJoin (b c : RawBounds) : RawBounds :=
  ⟨if c.minX < b.minX then c.minX else b.minX,
   if c.minY < b.minY then c.minY else b.minY,
   if b.maxX < c.maxX then c.maxX else b.maxX,
   if b.maxY < c.maxY then c.maxY else b.maxY⟩

/-- One contiguous run of non-eraser strokes with the erasers that may affect
it and its box (`utils.ts`, the group records built by `processHistory`). -/
structure Group where
  strokes : List Action
  relevantErasers : List Action
  bounds : RawBounds
deriving DecidableEq

/-- The box of one group's strokes (`utils.ts`, the loop in `flushGroup`). -/
def groupBounds (strokes : List Action) : RawBounds :=
  strokes.foldl (fun b s => boundsJoin b (getBounds s.path)) rawStart

/-- `flushGroup` (`utils.ts`): emit the pending run, if nonempty, paired with
`eraserActions.slice(eraserIdx)` — the erasers not yet walked past. -/
def flushGroup (eraserActions : List Action) (eraserIdx : ℕ)
    (currentStrokes : List Action) : List Group :=
  if currentStrokes = [] then []
  else [⟨currentStrokes, eraserActions.drop eraserIdx, groupBounds currentStrokes⟩]

/-- The grouping loop of `processHistory` (`utils.ts`): an eraser flushes the
pending run and then advances `eraserIdx`; any other action extends the run;
a final flush closes the trailing run. -/
def processLoop (eraserActions : List Action) :
    List Action → List Action → ℕ → List Group
  | [], currentStrokes, eraserIdx => flushGroup eraserActions eraserIdx currentStrokes
  | a :: rest, currentStrokes, eraserIdx =>
    if a.kind = Kind.eraser then
      flushGroup eraserActions eraserIdx currentStrokes ++
        processLoop eraserActions rest [] (eraserIdx + 1)
    else
      processLoop eraserActions rest (currentStrokes ++ [a]) eraserIdx

/-- Aggregate bounds with the `Infinity` fallback resolved (`utils.ts`, the
`bounds` record returned by `processHistory`). -/
structure Bounds where
  minX : ℤ
  minY : ℤ
  maxX : ℤ
  maxY : ℤ
  width : ℤ
  height : ℤ
deriving DecidableEq

/-- The full `processHistory` result (`utils.ts`). -/
structure ProcessResult where
  groups : List Group
  eraserActions : List Action
  bounds : Bounds
deriving DecidableEq

/-- The erasers of a history in order (`utils.ts`:
`history.filter(action.kind === 'eraser')`). -/
def erasersOf (history : List Action) : List Action :=
  history.filter fun a => decide (a.kind = Kind.eraser)

/-- The non-eraser (pen) actions of a history in order. -/
def pensOf (history : List Action) : List Action :=
  history.filter fun a => decide (¬ a.kind = Kind.eraser)

/-- The aggregate box over group boxes (`utils.ts`, the min/max loop after
grouping in `processHistory`). -/
def aggBounds (groups : List Group) : RawBounds :=
  groups.foldl (fun b g => boundsJoin b g.bounds) rawStart

/-- Resolve the sentinel fallback (`utils.ts`: `if (minX === Infinity)` all
four bounds collapse to zero), then attach `width`/`height`. -/
def resolveBounds (raw : RawBounds) : Bounds :=
  if raw.minX = ⊤ then ⟨0, 0, 0, 0, 0, 0⟩
  else
    ⟨raw.minX.untop' 0, raw.minY.untop' 0, raw.maxX.unbot' 0, raw.maxY.unbot' 0,
     raw.maxX.unbot' 0 - raw.minX.untop' 0, raw.maxY.unbot' 0 - raw.minY.untop' 0⟩

/-- `processHistory` (`utils.ts`). -/
def processHistory (history : List Action) : ProcessResult :=
  let eraserActions := erasersOf history
  let groups := processLoop eraserActions history [] 0
  ⟨groups, eraserActions, resolveBounds (aggBounds groups)⟩

theorem if_lt_eq_min {L : Type} [LinearOrder L] (x y : L) :
    (if x < y then x else y) = min x y := by
  split_ifs with h
  · exact (min_eq_left h.le).symm
  · exact (min_eq_right (not_lt.mp h)).symm

theorem if_lt_eq_max {L : Type} [LinearOrder L] (x y : L) :
    (if y < x then x else y) = max x y := by
  split_ifs with h
  · exact (max_eq_left h.le).symm
  · exact (max_eq_right (not_lt.mp h)).symm

theorem boundsJoin_char (b c : RawBounds) :
    boundsJoin b c = ⟨min b.minX c.minX, min b.minY c.minY,
      max b.maxX c.maxX, max b.maxY c.maxY⟩ := by
  rw [boundsJoin]
  rw [if_lt_eq_min c.minX b.minX, if_lt_eq_min c.minY b.minY,
    if_lt_eq_max c.maxX b.maxX, if_lt_eq_max c.maxY b.maxY]
  rw [min_comm c.minX b.minX, min_comm c.minY b.minY,
    max_comm c.maxX b.maxX, max_comm c.maxY b.maxY]

theorem boundsJoin_rawStart_right (b : RawBounds) :
    boundsJoin b rawStart = b := by
  rw [boundsJoin_char, rawStart]
  simp

theorem boundsJoin_assoc (a b c : RawBounds) :
    boundsJoin (boundsJoin a b) c = boundsJoin a (boundsJoin b c) := by
  simp only [boundsJoin_char, min_assoc, max_assoc]

/-- Strokes-bounds accumulation from an arbitrary start (generalizing the
`flushGroup` loop of `utils.ts`). -/
def strokesBoundsFrom (acc : RawBounds) (l : List Action) : RawBounds :=
  l.foldl (fun b s => boundsJoin b (getBounds s.path)) acc

/-- Aggregate accumulation over group boxes from an arbitrary start
(generalizing the aggregate loop of `processHistory`). -/
def aggFrom (acc : RawBounds) (gs : List Group) : RawBounds :=
  gs.foldl (fun b g => boundsJoin b g.bounds) acc

theorem strokesBoundsFrom_join (acc b : RawBounds) (l : List Action) :
    strokesBoundsFrom (boundsJoin acc b) l = boundsJoin acc (strokesBoundsFrom b l) := by
  induction l generalizing b with
  | nil => rfl
  | cons s l ih =>
    show strokesBoundsFrom (boundsJoin (boundsJoin acc b) (getBounds s.path)) l = _
    rw [boundsJoin_assoc, ih]
    rfl

theorem strokesBoundsFrom_groupBounds (acc : RawBounds) (l : List Action) :
    strokesBoundsFrom acc l = boundsJoin acc (groupBounds l) := by
  have h := strokesBoundsFrom_join acc rawStart l
  rw [boundsJoin_rawStart_right] at h
  exact h

theorem strokesBoundsFrom_append (acc : RawBounds) (l1 l2 : List Action) :
    strokesBoundsFrom acc (l1 ++ l2) = strokesBoundsFrom (strokesBoundsFrom acc l1) l2 :=
  List.foldl_append _ _ _ _

theorem pensOf_cons_eraser (a : Action) (rest : List Action)
    (ha : a.kind = Kind.eraser) : pensOf (a :: rest) = pensOf rest := by
  simp [pensOf, List.filter_cons, ha]

theorem pensOf_cons_pen (a : Action) (rest : List Action)
    (ha : ¬ a.kind = Kind.eraser) : pensOf (a :: rest) = a :: pensOf rest := by
  simp [pensOf, List.filter_cons, ha]

theorem aggFrom_processLoop (eras : List Action) (rest : List Action) :
    ∀ (cur : List Action) (idx : ℕ) (acc : RawBounds),
      aggFrom acc (processLoop eras rest cur idx) =
        strokesBoundsFrom acc (cur ++ pensOf rest) := by
  induction rest with
  | nil =>
    intro cur idx acc
    show aggFrom acc (flushGroup eras idx cur) = _
    rw [flushGroup]
    split_ifs with hcur
    · subst hcur
      rfl
    · show boundsJoin acc (groupBounds cur) = _
      rw [← strokesBoundsFrom_groupBounds]
      simp [pensOf]
  | cons a rest ih =>
    intro cur idx acc
    show aggFrom acc (if a.kind = Kind.eraser then _ else _) = _
    split_ifs with ha
    · rw [show aggFrom acc (flushGroup eras idx cur ++ processLoop eras rest [] (idx + 1)) =
          aggFrom (aggFrom acc (flushGroup eras idx cur)) (processLoop eras rest [] (idx + 1)) from
        List.foldl_append _ _ _ _]
      rw [pensOf_cons_eraser a rest ha]
      rw [flushGroup]
      split_ifs with hcur
      · subst hcur
        rw [show aggFrom acc [] = acc from rfl, ih [] (idx + 1) acc]
      · rw [show aggFrom acc [⟨cur, eras.drop idx, groupBounds cur⟩] =
            boundsJoin acc (groupBounds cur) from rfl]
        rw [← strokesBoundsFrom_groupBounds, ih [] (idx + 1) (strokesBoundsFrom acc cur)]
        rw [show strokesBoundsFrom (strokesBoundsFrom acc cur) ([] ++ pensOf rest) =
            strokesBoundsFrom acc (cur ++ pensOf rest) from
          (strokesBoundsFrom_append acc cur (pensOf rest)).symm]
    · rw [ih (cur ++ [a]) idx acc, pensOf_cons_pen a rest ha]
      rw [List.append_assoc]
      rfl

theorem processHistory_bounds_factor (h : List Action) :
    (processHistory h).bounds =
      resolveBounds (strokesBoundsFrom rawStart (pensOf h)) := by
  show resolveBounds (aggBounds (processLoop (erasersOf h) h [] 0)) = _
  rw [show aggBounds (processLoop (erasersOf h) h [] 0) =
      aggFrom rawStart (processLoop (erasersOf h) h [] 0) from rfl]
  rw [aggFrom_processLoop (erasersOf h) h [] 0 rawStart]
  rfl

/-- C6: the aggregate bounds computed by `processHistory` are a function of
the non-eraser (pen) actions alone, so adding or removing any erasers while
holding the pen actions fixed leaves the aggregate bounds unchanged. -/
theorem eraser_bounds_invariant (h1 h2 : List Action)
    (hp : pensOf h1 = pensOf h2) :
    (processHistory h1).bounds = (processHistory h2).bounds := by
  rw [processHistory_bounds_factor h1, processHistory_bounds_factor h2, hp]

/-- Concrete check of `eraser_bounds_invariant`: surrounding a pen stroke
with two erasers leaves the aggregate bounds unchanged. -/
theorem eraser_bounds_invariant_witness :
    pensOf [⟨"p", Kind.pen, [(0, 0), (10, 10)]⟩] =
      pensOf [⟨"e1", Kind.eraser, [(50, 50)]⟩, ⟨"p", Kind.pen, [(0, 0), (10, 10)]⟩,
        ⟨"e2", Kind.eraser, [(-50, -50)]⟩] ∧
    (processHistory [⟨"p", Kind.pen, [(0, 0), (10, 10)]⟩]).bounds =
      (processHistory [⟨"e1", Kind.eraser, [(50, 50)]⟩, ⟨"p", Kind.pen, [(0, 0), (10, 10)]⟩,
        ⟨"e2", Kind.eraser, [(-50, -50)]⟩]).bounds :=
  ⟨by decide, eraser_bounds_invariant _ _ (by decide)⟩

/-- Modelled from the claim, for comparison with `processHistory`: split the
history into its maximal contiguous runs of non-eraser actions, in order,
and pair each run with exactly the eraser actions occurring after the run's
strokes in history order (none for the trailing run). -/
def claimGroups : List Action → List Action → List (List Action × List Action)
  | [], acc => if acc = [] then [] else [(acc, [])]
  | a :: rest, acc =>
    if a.kind = Kind.eraser then
      (if acc = [] then [] else [(acc, erasersOf (a :: rest))]) ++ claimGroups rest []
    else
      claimGroups rest (acc ++ [a])

theorem erasersOf_cons_eraser (a : Action) (rest : List Action)
    (ha : a.kind = Kind.eraser) : erasersOf (a :: rest) = a :: erasersOf rest := by
  simp [erasersOf, List.filter_cons, ha]

theorem erasersOf_cons_pen (a : Action) (rest : List Action)
    (ha : ¬ a.kind = Kind.eraser) : erasersOf (a :: rest) = erasersOf rest := by
  simp [erasersOf, List.filter_cons, ha]

theorem processLoop_claimGroups (eras : List Action) (rest : List Action) :
    ∀ (cur : List Action) (idx : ℕ), eras.drop idx = erasersOf rest →
      (processLoop eras rest cur idx).map (fun g => (g.strokes, g.relevantErasers)) =
        claimGroups rest cur := by
  induction rest with
  | nil =>
    intro cur idx hdrop
    show (flushGroup eras idx cur).map _ = if cur = [] then [] else [(cur, [])]
    rw [flushGroup]
    split_ifs with hcur
    · rfl
    · rw [hdrop]
      rfl
  | cons a rest ih =>
    intro cur idx hdrop
    have hunf : processLoop eras (a :: rest) cur idx =
        if a.kind = Kind.eraser then
          flushGroup eras idx cur ++ processLoop eras rest [] (idx + 1)
        else processLoop eras rest (cur ++ [a]) idx := rfl
    rw [hunf, claimGroups]
    by_cases ha : a.kind = Kind.eraser
    · have hrest : eras.drop (idx + 1) = erasersOf rest := by
        have h1 : eras.drop (idx + 1) = (eras.drop idx).drop 1 := by
          rw [List.drop_drop, Nat.add_comm]
        rw [h1, hdrop, erasersOf_cons_eraser a rest ha, List.drop_succ_cons,
          List.drop_zero]
      rw [if_pos ha, if_pos ha, List.map_append, ih [] (idx + 1) hrest, flushGroup]
      by_cases hcur : cur = []
      · rw [if_pos hcur, if_pos hcur]
        rfl
      · rw [if_neg hcur, if_neg hcur, hdrop]
        rfl
    · rw [if_neg ha, if_neg ha,
        ih (cur ++ [a]) idx (by rw [hdrop, erasersOf_cons_pen a rest ha])]

theorem join_processLoop (eras : List Action) (rest : List Action) :
    ∀ (cur : List Action) (idx : ℕ),
      ((processLoop eras rest cur idx).map (fun g => g.strokes)).flatten =
        cur ++ pensOf rest := by
  induction rest with
  | nil =>
    intro cur idx
    show ((flushGroup eras idx cur).map _).flatten = _
    rw [flushGroup]
    split_ifs with hcur
    · subst hcur
      rfl
    · simp [pensOf]
  | cons a rest ih =>
    intro cur idx
    have hunf : processLoop eras (a :: rest) cur idx =
        if a.kind = Kind.eraser then
          flushGroup eras idx cur ++ processLoop eras rest [] (idx + 1)
        else processLoop eras rest (cur ++ [a]) idx := rfl
    rw [hunf]
    by_cases ha : a.kind = Kind.eraser
    · rw [if_pos ha, List.map_append, List.flatten_append, ih [] (idx + 1),
        pensOf_cons_eraser a rest ha, flushGroup]
      by_cases hcur : cur = []
      · rw [if_pos hcur, hcur]
        rfl
      · rw [if_neg hcur]
        simp
    · rw [if_neg ha, ih (cur ++ [a]) idx, pensOf_cons_pen a rest ha,
        List.append_assoc]
      rfl

/-- C7: `processHistory` groups the non-eraser actions into exactly the
maximal contiguous runs of the history, in order (their concatenation is the
pen subsequence), and each group's `relevantErasers` are exactly the erasers
occurring after that group's strokes in history order, so no earlier eraser
is ever applied to a group. -/
theorem processHistory_grouping (h : List Action) :
    (processHistory h).groups.map (fun g => (g.strokes, g.relevantErasers)) =
      claimGroups h [] ∧
    ((processHistory h).groups.map (fun g => g.strokes)).flatten = pensOf h := by
  constructor
  · exact processLoop_claimGroups (erasersOf h) h [] 0 (by rw [List.drop_zero])
  · exact join_processLoop (erasersOf h) h [] 0

/-- Export padding (`utils.ts`, `exportAsPng`: `padding = 20`). -/
def PADDING : ℕ := 20

/-- Width of the export raster (`utils.ts`:
`Math.ceil(bounds.width + padding * 2)`; `Math.ceil` is the identity on the
integer coordinates modelled here). -/
def exportWidth (history : List Action) : ℕ :=
  ((processHistory history).bounds.width + (PADDING : ℤ) * 2).toNat

/-- Height of the export raster (`utils.ts`:
`Math.ceil(bounds.height + padding * 2)`). -/
def exportHeight (history : List Action) : ℕ :=
  ((processHistory history).bounds.height + (PADDING : ℤ) * 2).toNat

/-- Alpha-scan accumulator (`utils.ts`, `exportAsPng`: the `minX`/`minY`/
`maxX`/`maxY`/`found` locals of the pixel loop). -/
structure ScanState where
  minX : ℕ
  minY : ℕ
  maxX : ℕ
  maxY : ℕ
  found : Bool
deriving DecidableEq

/-- One pixel step of the alpha scan (`utils.ts`: a pixel with positive alpha
extends the tight box and marks `found`). -/
def scanPixel (alphaAt : ℕ → ℕ → ℕ) (s : ScanState) (c : ℕ × ℕ) : ScanState :=
  if 0 < alphaAt c.1 c.2 then
    ⟨if c.1 < s.minX then c.1 else s.minX,
     if c.2 < s.minY then c.2 else s.minY,
     if s.maxX < c.1 then c.1 else s.maxX,
     if s.maxY < c.2 then c.2 else s.maxY,
     true⟩
  else s

/-- Row-major pixel coordinates of a `w × h` raster (`utils.ts`: the nested
`for` loops, `y` outer and `x` inner). -/
def scanCells (w h : ℕ) : List (ℕ × ℕ) :=
  (List.range h).flatMap fun y => (List.range w).map fun x => (x, y)

/-- The alpha scan over the whole raster (`utils.ts`: start values are
`minX = width`, `minY = height`, `maxX = 0`, `maxY = 0`, `found = false`). -/
def alphaScan (w h : ℕ) (alphaAt : ℕ → ℕ → ℕ) : ScanState :=
  (scanCells w h).foldl (scanPixel alphaAt) ⟨w, h, 0, 0, false⟩

/-- `cropWidth` (`utils.ts`: `found ? maxX - minX + 1 : 0`). -/
def cropWidth (s : ScanState) : ℕ := if s.found then s.maxX - s.minX + 1 else 0

/-- `cropHeight` (`utils.ts`: `found ? maxY - minY + 1 : 0`). -/
def cropHeight (s : ScanState) : ℕ := if s.found then s.maxY - s.minY + 1 else 0

/-- Output canvas width (`utils.ts`: `cropWidth + padding * 2`). -/
def outputWidth (s : ScanState) : ℕ := cropWidth s + PADDING * 2

/-- Output canvas height (`utils.ts`: `cropHeight + padding * 2`). -/
def outputHeight (s : ScanState) : ℕ := cropHeight s + PADDING * 2

/-- The alpha scan of a history's export raster, with the browser
rasterization of the generated SVG abstracted as an alpha oracle. -/
def exportScan (history : List Action) (alphaAt : ℕ → ℕ → ℕ) : ScanState :=
  alphaScan (exportWidth history) (exportHeight history) alphaAt

/-- An RGBA pixel with byte channels. -/
structure Rgba where
  r : ℕ
  g : ℕ
  b : ℕ
  a : ℕ
deriving DecidableEq

/-- Opaque white (`utils.ts`: `fillStyle = '#ffffff'` filling the whole
output canvas). -/
def white : Rgba := ⟨255, 255, 255, 255⟩

/-- Source-over compositing of one raster pixel onto the opaque white fill
(`utils.ts`: `drawImage` of the cropped region onto the white-filled output
canvas). -/
def overWhite (src : Rgba) : Rgba :=
  ⟨(src.r * src.a + 255 * (255 - src.a)) / 255,
   (src.g * src.a + 255 * (255 - src.a)) / 255,
   (src.b * src.a + 255 * (255 - src.a)) / 255,
   255⟩

/-- One output pixel (`utils.ts`): opaque white everywhere, with the cropped
region of the first raster blitted at offset `padding` when content was
found; the first raster's colors are abstracted as an oracle `srcAt`. -/
def outputPixel (s : ScanState) (srcAt : ℕ → ℕ → Rgba) (x y : ℕ) : Rgba :=
  if s.found = true ∧ PADDING ≤ x ∧ x < PADDING + cropWidth s ∧
      PADDING ≤ y ∧ y < PADDING + cropHeight s then
    overWhite (srcAt (s.minX + (x - PADDING)) (s.minY + (y - PADDING)))
  else white

/-- The final export image of `exportAsPng` (`utils.ts`): output dimensions
and pixel map, with rasterization abstracted by the two oracles. -/
structure ExportImage where
  width : ℕ
  height : ℕ
  pixel : ℕ → ℕ → Rgba

/-- `exportAsPng` (`utils.ts`) end to end on the pure data: bounds from
`processHistory`, raster dimensions, alpha scan, crop, and output canvas. -/
def exportImage (history : List Action) (alphaAt : ℕ → ℕ → ℕ)
    (srcAt : ℕ → ℕ → Rgba) : ExportImage :=
  ⟨outputWidth (exportScan history alphaAt),
   outputHeight (exportScan history alphaAt),
   outputPixel (exportScan history alphaAt) srcAt⟩

theorem scanPixel_of_zero (alphaAt : ℕ → ℕ → ℕ) (s : ScanState) (c : ℕ × ℕ)
    (h0 : alphaAt c.1 c.2 = 0) : scanPixel alphaAt s c = s := by
  rw [scanPixel, if_neg]
  rw [h0]
  exact lt_irrefl 0

theorem foldl_scan_zero (alphaAt : ℕ → ℕ → ℕ) (hz : ∀ x y, alphaAt x y = 0)
    (cells : List (ℕ × ℕ)) (s : ScanState) :
    cells.foldl (scanPixel alphaAt) s = s := by
  induction cells generalizing s with
  | nil => rfl
  | cons c cs ih =>
    rw [List.foldl_cons, scanPixel_of_zero alphaAt s c (hz c.1 c.2), ih]

theorem scanPixel_found_mono (alphaAt : ℕ → ℕ → ℕ) (s : ScanState) (c : ℕ × ℕ)
    (h : s.found = true) : (scanPixel alphaAt s c).found = true := by
  by_cases h0 : 0 < alphaAt c.1 c.2
  · rw [scanPixel, if_pos h0]
  · rw [scanPixel, if_neg h0]
    exact h

theorem foldl_scan_found_mono (alphaAt : ℕ → ℕ → ℕ) (cells : List (ℕ × ℕ))
    (s : ScanState) (h : s.found = true) :
    (cells.foldl (scanPixel alphaAt) s).found = true := by
  induction cells generalizing s with
  | nil => exact h
  | cons c cs ih =>
    exact ih (scanPixel alphaAt s c) (scanPixel_found_mono alphaAt s c h)

theorem foldl_scan_found (alphaAt : ℕ → ℕ → ℕ) (cells : List (ℕ × ℕ))
    (s : ScanState) (x0 y0 : ℕ) (hmem : (x0, y0) ∈ cells)
    (hpos : 0 < alphaAt x0 y0) :
    (cells.foldl (scanPixel alphaAt) s).found = true := by
  induction cells generalizing s with
  | nil => cases hmem
  | cons c cs ih =>
    rcases List.mem_cons.mp hmem with hc | hc
    · rw [List.foldl_cons]
      refine foldl_scan_found_mono alphaAt cs _ ?_
      rw [← hc, scanPixel, if_pos hpos]
    · exact ih (scanPixel alphaAt s c) hc

theorem scanPixel_minX_le (alphaAt : ℕ → ℕ → ℕ) (s : ScanState) (c : ℕ × ℕ) :
    (scanPixel alphaAt s c).minX ≤ s.minX := by
  by_cases h0 : 0 < alphaAt c.1 c.2
  · rw [scanPixel, if_pos h0]
    show (if c.1 < s.minX then c.1 else s.minX) ≤ s.minX
    by_cases h1 : c.1 < s.minX
    · rw [if_pos h1]
      exact h1.le
    · rw [if_neg h1]
  · rw [scanPixel, if_neg h0]

theorem foldl_scan_minX_mono (alphaAt : ℕ → ℕ → ℕ) (cells : List (ℕ × ℕ))
    (s : ScanState) : (cells.foldl (scanPixel alphaAt) s).minX ≤ s.minX := by
  induction cells generalizing s with
  | nil => exact le_refl _
  | cons c cs ih =>
    exact le_trans (ih (scanPixel alphaAt s c)) (scanPixel_minX_le alphaAt s c)

theorem foldl_scan_minX_le (alphaAt : ℕ → ℕ → ℕ) (cells : List (ℕ × ℕ))
    (s : ScanState) (x0 y0 : ℕ) (hmem : (x0, y0) ∈ cells)
    (hpos : 0 < alphaAt x0 y0) :
    (cells.foldl (scanPixel alphaAt) s).minX ≤ x0 := by
  induction cells generalizing s with
  | nil => cases hmem
  | cons c cs ih =>
    rcases List.mem_cons.mp hmem with hc | hc
    · rw [List.foldl_cons]
      refine le_trans (foldl_scan_minX_mono alphaAt cs _) ?_
      rw [← hc, scanPixel, if_pos hpos]
      show (if x0 < s.minX then x0 else s.minX) ≤ x0
      by_cases h1 : x0 < s.minX
      · rw [if_pos h1]
      · rw [if_neg h1]
        exact not_lt.mp h1
    · exact ih (scanPixel alphaAt s c) hc

theorem scanPixel_maxX_mono (alphaAt : ℕ → ℕ → ℕ) (s : ScanState) (c : ℕ × ℕ) :
    s.maxX ≤ (scanPixel alphaAt s c).maxX := by
  by_cases h0 : 0 < alphaAt c.1 c.2
  · rw [scanPixel, if_pos h0]
    show s.maxX ≤ (if s.maxX < c.1 then c.1 else s.maxX)
    by_cases h1 : s.maxX < c.1
    · rw [if_pos h1]
      exact h1.le
    · rw [if_neg h1]
  · rw [scanPixel, if_neg h0]

theorem foldl_scan_maxX_mono (alphaAt : ℕ → ℕ → ℕ) (cells : List (ℕ × ℕ))
    (s : ScanState) : s.maxX ≤ (cells.foldl (scanPixel alphaAt) s).maxX := by
  induction cells generalizing s with
  | nil => exact le_refl _
  | cons c cs ih =>
    exact le_trans (scanPixel_maxX_mono alphaAt s c) (ih (scanPixel alphaAt s c))

theorem foldl_scan_maxX_ge (alphaAt : ℕ → ℕ → ℕ) (cells : List (ℕ × ℕ))
    (s : ScanState) (x0 y0 : ℕ) (hmem : (x0, y0) ∈ cells)
    (hpos : 0 < alphaAt x0 y0) :
    x0 ≤ (cells.foldl (scanPixel alphaAt) s).maxX := by
  induction cells generalizing s with
  | nil => cases hmem
  | cons c cs ih =>
    rcases List.mem_cons.mp hmem with hc | hc
    · rw [List.foldl_cons]
      refine le_trans ?_ (foldl_scan_maxX_mono alphaAt cs _)
      rw [← hc, scanPixel, if_pos hpos]
      show x0 ≤ (if s.maxX < x0 then x0 else s.maxX)
      by_cases h1 : s.maxX < x0
      · rw [if_pos h1]
      · rw [if_neg h1]
        exact not_lt.mp h1
    · exact ih (scanPixel alphaAt s c) hc

theorem foldl_scan_maxX_ub (alphaAt : ℕ → ℕ → ℕ) (cells : List (ℕ × ℕ))
    (s : ScanState) (B : ℕ) (hcells : ∀ c ∈ cells, c.1 ≤ B)
    (hs : s.maxX ≤ B) : (cells.foldl (scanPixel alphaAt) s).maxX ≤ B := by
  induction cells generalizing s with
  | nil => exact hs
  | cons c cs ih =>
    rw [List.foldl_cons]
    refine ih (scanPixel alphaAt s c)
      (fun d hd => hcells d (List.mem_cons_of_mem c hd)) ?_
    by_cases h0 : 0 < alphaAt c.1 c.2
    · rw [scanPixel, if_pos h0]
      show (if s.maxX < c.1 then c.1 else s.maxX) ≤ B
      by_cases h1 : s.maxX < c.1
      · rw [if_pos h1]
        exact hcells c (List.mem_cons_self c cs)
      · rw [if_neg h1]
        exact hs
    · rw [scanPixel, if_neg h0]
      exact hs

theorem mem_scanCells (w h x y : ℕ) :
    (x, y) ∈ scanCells w h ↔ x < w ∧ y < h := by
  simp only [scanCells, List.mem_flatMap, List.mem_map, List.mem_range,
    Prod.mk.injEq]
  constructor
  · rintro ⟨y', hy', x', hx', hxx, hyy⟩
    exact ⟨hxx ▸ hx', hyy ▸ hy'⟩
  · rintro ⟨hx, hy⟩
    exact ⟨y, hy, x, hx, rfl, rfl⟩

theorem blank_export_of_dims (hist : List Action) (alphaAt : ℕ → ℕ → ℕ)
    (srcAt : ℕ → ℕ → Rgba) (hz : ∀ x y, alphaAt x y = 0)
    (hw : exportWidth hist = 40) (hh : exportHeight hist = 40) :
    exportImage hist alphaAt srcAt = ⟨40, 40, fun _ _ => white⟩ := by
  have hscan : exportScan hist alphaAt = ⟨40, 40, 0, 0, false⟩ := by
    rw [exportScan, hw, hh, alphaScan, foldl_scan_zero alphaAt hz]
  have h3 : outputPixel ⟨40, 40, 0, 0, false⟩ srcAt = fun _ _ => white := by
    funext x y
    rw [outputPixel, if_neg]
    simp
  rw [exportImage, hscan, h3]
  rfl

/-- C8: exporting an empty history yields the fixed blank image: a fully
opaque white bitmap with no drawn content, its width and height exactly twice
the 20-unit padding (40 × 40). `exportAsPng` takes only the history, so the
result is independent of any view state. -/
theorem export_empty_blank (alphaAt : ℕ → ℕ → ℕ) (srcAt : ℕ → ℕ → Rgba)
    (hz : ∀ x y, alphaAt x y = 0) :
    exportImage [] alphaAt srcAt = ⟨2 * PADDING, 2 * PADDING, fun _ _ => white⟩ := by
  have h := blank_export_of_dims [] alphaAt srcAt hz (by decide) (by decide)
  rw [h]
  rfl

/-- Concrete check of `export_empty_blank` at the all-transparent raster. -/
theorem export_empty_blank_witness :
    (∀ x y : ℕ, (fun _ _ => (0 : ℕ)) x y = 0) ∧
    exportImage [] (fun _ _ => 0) (fun _ _ => white) =
      ⟨2 * PADDING, 2 * PADDING, fun _ _ => white⟩ :=
  ⟨fun _ _ => rfl, export_empty_blank (fun _ _ => 0) (fun _ _ => white) (fun _ _ => rfl)⟩

theorem processLoop_no_pens (eras : List Action) (rest : List Action) :
    ∀ idx : ℕ, pensOf rest = [] → processLoop eras rest [] idx = [] := by
  induction rest with
  | nil =>
    intro idx _
    rfl
  | cons a rest ih =>
    intro idx hp
    by_cases ha : a.kind = Kind.eraser
    · have hunf : processLoop eras (a :: rest) [] idx =
          flushGroup eras idx [] ++ processLoop eras rest [] (idx + 1) := by
        show (if a.kind = Kind.eraser then _ else _) = _
        rw [if_pos ha]
      rw [hunf, show flushGroup eras idx [] = [] from rfl, List.nil_append]
      exact ih (idx + 1) (by rw [← pensOf_cons_eraser a rest ha, hp])
    · rw [pensOf_cons_pen a rest ha] at hp
      cases hp

/-- C10: a history with no pen actions (empty or erasers only) produces the
all-zero aggregate bounds (zero width and height) and an empty group list,
and its export is the same blank 40 × 40 opaque white image as the export of
the empty history. -/
theorem eraser_only_blank (h : List Action) (alphaAt : ℕ → ℕ → ℕ)
    (srcAt : ℕ → ℕ → Rgba) (hp : pensOf h = [])
    (hz : ∀ x y, alphaAt x y = 0) :
    (processHistory h).groups = [] ∧
    (processHistory h).bounds = ⟨0, 0, 0, 0, 0, 0⟩ ∧
    exportImage h alphaAt srcAt = exportImage [] alphaAt srcAt ∧
    exportImage h alphaAt srcAt = ⟨40, 40, fun _ _ => white⟩ := by
  have hbounds : (processHistory h).bounds = ⟨0, 0, 0, 0, 0, 0⟩ := by
    rw [processHistory_bounds_factor, hp]
    rfl
  have hw : exportWidth h = 40 := by
    rw [exportWidth, hbounds]
    rfl
  have hh : exportHeight h = 40 := by
    rw [exportHeight, hbounds]
    rfl
  have hblank := blank_export_of_dims h alphaAt srcAt hz hw hh
  have hblank0 := blank_export_of_dims [] alphaAt srcAt hz (by decide) (by decide)
  refine ⟨?_, hbounds, by rw [hblank, hblank0], hblank⟩
  exact processLoop_no_pens (erasersOf h) h 0 hp

/-- Concrete check of `eraser_only_blank` on a one-eraser history. -/
theorem eraser_only_blank_witness :
    pensOf [⟨"e", Kind.eraser, [(3, 4), (7, 8)]⟩] = [] ∧
    (∀ x y : ℕ, (fun _ _ => (0 : ℕ)) x y = 0) ∧
    ((processHistory [⟨"e", Kind.eraser, [(3, 4), (7, 8)]⟩]).groups = [] ∧
      (processHistory [⟨"e", Kind.eraser, [(3, 4), (7, 8)]⟩]).bounds =
        ⟨0, 0, 0, 0, 0, 0⟩ ∧
      exportImage [⟨"e", Kind.eraser, [(3, 4), (7, 8)]⟩] (fun _ _ => 0)
          (fun _ _ => white) =
        exportImage [] (fun _ _ => 0) (fun _ _ => white) ∧
      exportImage [⟨"e", Kind.eraser, [(3, 4), (7, 8)]⟩] (fun _ _ => 0)
          (fun _ _ => white) = ⟨40, 40, fun _ _ => white⟩) :=
  ⟨by decide, fun _ _ => rfl,
    eraser_only_blank _ _ _ (by decide) (fun _ _ => rfl)⟩

/-- A single pen stroke whose outline spans 2060 world units horizontally. -/
def wideStroke : Action := ⟨"wide", Kind.pen, [(0, 0), (2060, 0)]⟩

/-- A history whose tight opaque box exceeds 2000 units on its longer side. -/
def wideHistory : List Action := [wideStroke]

/-- A fully opaque rasterization oracle. -/
def fullAlpha : ℕ → ℕ → ℕ := fun _ _ => 255

theorem wide_export_width : exportWidth wideHistory = 2100 := by decide

theorem wide_export_height : exportHeight wideHistory = 40 := by decide

theorem wide_scan_crop : cropWidth (exportScan wideHistory fullAlpha) = 2100 := by
  have hscan : exportScan wideHistory fullAlpha =
      (scanCells 2100 40).foldl (scanPixel fullAlpha) ⟨2100, 40, 0, 0, false⟩ := by
    rw [exportScan, wide_export_width, wide_export_height]
    rfl
  have hmem0 : ((0 : ℕ), (0 : ℕ)) ∈ scanCells 2100 40 :=
    (mem_scanCells 2100 40 0 0).mpr ⟨by omega, by omega⟩
  have hmemR : ((2099 : ℕ), (0 : ℕ)) ∈ scanCells 2100 40 :=
    (mem_scanCells 2100 40 2099 0).mpr ⟨by omega, by omega⟩
  have hpos : ∀ x y : ℕ, 0 < fullAlpha x y := fun _ _ => by
    rw [fullAlpha]
    omega
  have hfound := foldl_scan_found fullAlpha (scanCells 2100 40)
    ⟨2100, 40, 0, 0, false⟩ 0 0 hmem0 (hpos 0 0)
  have hminX := foldl_scan_minX_le fullAlpha (scanCells 2100 40)
    ⟨2100, 40, 0, 0, false⟩ 0 0 hmem0 (hpos 0 0)
  have hmaxG := foldl_scan_maxX_ge fullAlpha (scanCells 2100 40)
    ⟨2100, 40, 0, 0, false⟩ 2099 0 hmemR (hpos 2099 0)
  have hmaxL := foldl_scan_maxX_ub fullAlpha (scanCells 2100 40)
    ⟨2100, 40, 0, 0, false⟩ 2099 ?_ (by decide)
  · rw [hscan, cropWidth, if_pos hfound]
    omega
  · intro c hc
    obtain ⟨x, y⟩ := c
    have := ((mem_scanCells 2100 40 x y).mp hc).1
    omega

/-- C5 counterexample: the history of one 2060-unit-wide stroke, rasterized
fully opaque, has a tight opaque box 2100 units wide — beyond the claimed
2000-unit maximum — yet the export applies no downscaling: the pre-padding
output dimension stays 2100 and the final width is 2140, violating the
claimed 2000-unit cap. -/
theorem export_no_downscale_counterexample :
    2000 < cropWidth (exportScan wideHistory fullAlpha) ∧
    outputWidth (exportScan wideHistory fullAlpha) = 2140 ∧
    ¬ cropWidth (exportScan wideHistory fullAlpha) ≤ 2000 := by
  have h := wide_scan_crop
  refine ⟨by omega, ?_, by omega⟩
  rw [outputWidth, h]
  decide

/-- C5 as amended: `exportAsPng` never downscales; the output dimensions are
always the tight opaque box plus 20 units of padding per side, so whenever
the tight box exceeds 2000 units the padded output exceeds 2040 units. -/
theorem export_no_downscale (hist : List Action) (alphaAt : ℕ → ℕ → ℕ)
    (hbig : 2000 < cropWidth (exportScan hist alphaAt)) :
    outputWidth (exportScan hist alphaAt) =
      cropWidth (exportScan hist alphaAt) + PADDING * 2 ∧
    2000 + PADDING * 2 < outputWidth (exportScan hist alphaAt) := by
  refine ⟨rfl, ?_⟩
  rw [outputWidth]
  exact Nat.add_lt_add_right hbig (PADDING * 2)

/-- Concrete check of `export_no_downscale` at the wide-stroke history. -/
theorem export_no_downscale_witness :
    2000 < cropWidth (exportScan wideHistory fullAlpha) ∧
    (outputWidth (exportScan wideHistory fullAlpha) =
        cropWidth (exportScan wideHistory fullAlpha) + PADDING * 2 ∧
      2000 + PADDING * 2 < outputWidth (exportScan wideHistory fullAlpha)) :=
  ⟨by rw [wide_scan_crop]; omega,
    export_no_downscale wideHistory fullAlpha (by rw [wide_scan_crop]; omega)⟩

end Jetch
